import Mathlib

/-!
Verification of the retrieval and query-routing engine of a laptop-spec
RAG system.  The definitions below are a shallow embedding of the Python
sources `src/retriever.py`, `src/query_analyzer.py` and `src/rag_engine.py`:
NumPy float arithmetic is modelled over `ℚ`, the external embedding model
(embed followed by L2 normalisation) is an abstract parameter
`e : String → List ℚ`, and Python lists/dicts become Lean lists and
association lists.
-/

namespace LaptopRag

/-- `src/models.py` `Chunk`: a text body plus a string-keyed metadata mapping
(`product_id`, `product_name`, `category`, `key`). -/
structure Chunk where
  content : String
  metadata : List (String × String)
deriving DecidableEq, Repr

instance : Inhabited Chunk := ⟨⟨"", []⟩⟩

/-- `src/models.py` `QAItem`: a question/answer pair tagged with a
product name (or the sentinel "overall"). -/
structure QAItem where
  question : String
  answer : String
  product_name : String
deriving DecidableEq, Repr

instance : Inhabited QAItem := ⟨⟨"", "", ""⟩⟩

/-- Python's `str.lower()` (character-wise, which agrees with it on the
ASCII texts this system handles). -/
def lowerStr (s : String) : String := ⟨s.data.map Char.toLower⟩

/-- Python's `str.upper()` (character-wise, which agrees with it on the
ASCII texts this system handles). -/
def upperStr (s : String) : String := ⟨s.data.map Char.toUpper⟩

/-- Python's `pat in s` substring test, on character lists:
`pat` occurs as a contiguous run somewhere in `s` (the empty pattern
always occurs). -/
def containsChars (pat : List Char) : List Char → Bool
  | [] => pat.isEmpty
  | c :: rest => pat.isPrefixOf (c :: rest) || containsChars pat rest

/-- Python's `pat in s` on strings. -/
def containsStr (s pat : String) : Bool :=
  containsChars pat.toList s.toList

/-- Helper for `pyTokens`: scan the characters, cutting at whitespace and
never emitting an empty token (the accumulator holds the current token,
reversed). -/
def wsTokens (acc : List Char) : List Char → List String
  | [] => if acc = [] then [] else [⟨acc.reverse⟩]
  | c :: rest =>
    if c.isWhitespace then
      if acc = [] then wsTokens [] rest else ⟨acc.reverse⟩ :: wsTokens [] rest
    else wsTokens (c :: acc) rest

/-- Python's `query.lower().split()`: lower-case, then split on whitespace
runs, dropping empty pieces. -/
def pyTokens (q : String) : List String :=
  wsTokens [] (lowerStr q).data

/-- Python's `set(query.lower().split())` as a duplicate-free list
(`retriever.py` line 146). -/
def tokenSet (q : String) : List String :=
  (pyTokens q).dedup

/-- `np.dot` of two equal-length vectors (`retriever.py` lines 169, 308). -/
def dot (v w : List ℚ) : ℚ :=
  ((v.zip w).map (fun p => p.1 * p.2)).sum

/-- `retriever.py` line 177: number of distinct query tokens occurring as a
substring of the lower-cased chunk content. -/
def overlapCnt (query : String) (c : Chunk) : ℕ :=
  ((tokenSet query).filter (fun t => containsStr (lowerStr c.content) t)).length

/-- `retriever.py` line 178: `min(overlap * 0.05, 0.5)`. -/
def kwBonus (query : String) (c : Chunk) : ℚ :=
  min ((overlapCnt query c : ℚ) * (1 / 20)) (1 / 2)

/-- Cosine similarity of a chunk against a query, for an (externally
normalised) embedding `e`: the dot product of the two unit vectors
(`retriever.py` line 169). -/
def cosineSim (e : String → List ℚ) (c : Chunk) (q : String) : ℚ :=
  dot (e c.content) (e q)

/-- Ascending comparison on (score, index) pairs: lexicographic, so equal
scores are ordered by original index — the stable ascending order
`np.argsort` produces. -/
def keyLe (a b : ℚ × ℕ) : Bool :=
  decide (a.1 < b.1) || (a.1 == b.1 && decide (a.2 ≤ b.2))

/-- Ordered insertion for `sortKeys`. -/
def insertKey (x : ℚ × ℕ) : List (ℚ × ℕ) → List (ℚ × ℕ)
  | [] => [x]
  | y :: ys => if keyLe x y then x :: y :: ys else y :: insertKey x ys

/-- Insertion sort by `keyLe`. -/
def sortKeys : List (ℚ × ℕ) → List (ℚ × ℕ)
  | [] => []
  | x :: xs => insertKey x (sortKeys xs)

/-- `np.argsort(scores)` (stable, ascending): the indices of `scores`
ordered by ascending value, ties by ascending index. -/
def argsortAsc (scores : List ℚ) : List ℕ :=
  (sortKeys (scores.zip (List.range scores.length))).map (fun p => p.2)

/-- `np.argsort(scores)[::-1]` (`retriever.py` lines 186, 311):
the ascending argsort, reversed. -/
def argsortDesc (scores : List ℚ) : List ℕ :=
  (argsortAsc scores).reverse

/-- Position of the first occurrence of `x` in a list (used to state where
a candidate index lands in the ranking produced by `argsortDesc`). -/
def firstPos {α : Type} [DecidableEq α] (x : α) : List α → ℕ
  | [] => 0
  | y :: ys => if y = x then 0 else firstPos x ys + 1

/-- `retriever.py` `ChunkRetriever` state after `add_chunks`: the parallel
arrays `chunks[i] ↔ vectors[i]` (vectors already L2-normalised). -/
structure ChunkRetriever where
  chunks : List Chunk
  vectors : List (List ℚ)
deriving Repr

/-- `ChunkRetriever.add_chunks` (`retriever.py` lines 99-121): embed every
chunk's content with the normalised embedding `e` and store the parallel
vector list. -/
def addChunks (e : String → List ℚ) (chunks : List Chunk) : ChunkRetriever :=
  ⟨chunks, chunks.map (fun c => e c.content)⟩

/-- Python's `list.index(x)` returning `none` instead of raising
`ValueError` (`retriever.py` line 157): index of the first element equal
to `t`. -/
def pyIndex : List Chunk → Chunk → Option ℕ
  | [], _ => none
  | c :: cs, t => if c = t then some 0 else (pyIndex cs t).map (· + 1)

/-- `retriever.py` lines 152-161: gather, for each candidate that resolves
against the canonical corpus, the corpus vector at its first index of
equality; candidates that do not resolve are skipped. -/
def resolveVectors (R : ChunkRetriever) (tgt : List Chunk) : List (List ℚ) :=
  tgt.filterMap (fun t => (pyIndex R.chunks t).map (fun idx => R.vectors.getD idx []))

/-- `retriever.py` lines 168-183: the per-candidate hybrid scores — the
cosine score of the `i`-th *resolved* vector plus the keyword bonus of the
`i`-th *candidate* chunk (these can denote different chunks when some
candidate failed to resolve and was skipped). -/
def searchFinalScores (R : ChunkRetriever) (e : String → List ℚ) (query : String)
    (tgt : List Chunk) : List ℚ :=
  let vector_scores := (resolveVectors R tgt).map (fun v => dot v (e query))
  (List.range vector_scores.length).map (fun i =>
    vector_scores.getD i 0 + kwBonus query (tgt.getD i default))

/-- `ChunkRetriever.search` (`retriever.py` lines 123-191) with the
embed-and-normalise step abstracted as `e`.  Returns the ranked chunks
paired with their hybrid scores. -/
def chunkSearch (R : ChunkRetriever) (e : String → List ℚ) (query : String)
    (top_k : ℕ) (candidate_chunks : Option (List Chunk)) :
    List Chunk × List ℚ :=
  let target_chunks := candidate_chunks.getD R.chunks
  if target_chunks = [] then ([], [])
  else if resolveVectors R target_chunks = [] then ([], [])
  else
    let final_scores := searchFinalScores R e query target_chunks
    let top_indices := (argsortDesc final_scores).take top_k
    (top_indices.map (fun i => target_chunks.getD i default),
     top_indices.map (fun i => final_scores.getD i 0))

/-- `retriever.py` `QARetriever` state after `_load_qa_dataset`: the QA
items and, when at least one item was loaded, the parallel list of
normalised question vectors (`vectors` stays `None` on an empty load). -/
structure QARetriever where
  qa_items : List QAItem
  vectors : Option (List (List ℚ))
deriving Repr

/-- `QARetriever._load_qa_dataset` (`retriever.py` lines 223-266) applied
to an already-parsed list of items: embed every question; `vectors` is
only set when the list is non-empty. -/
def qaLoad (e : String → List ℚ) (items : List QAItem) : QARetriever :=
  ⟨items, if items = [] then none else some (items.map (fun it => e it.question))⟩

/-- `retriever.py` line 294: an empty `product_name` field is treated as
the sentinel "overall" (Python truthiness of the string). -/
def pnNorm (it : QAItem) : String :=
  if it.product_name = "" then "overall" else it.product_name

/-- `retriever.py` lines 292-296: indices of the items whose (normalised)
product name case-insensitively equals the scope, or equals "overall". -/
def qaCandidateIdx (items : List QAItem) (scope : String) : List ℕ :=
  (List.range items.length).filter (fun i =>
    let pn := pnNorm (items.getD i default)
    upperStr pn == upperStr scope || pn == "overall")

/-- `retriever.py` lines 292-300: the candidate index set, falling back to
every index when the scope filter matches nothing. -/
def qaCandidates (items : List QAItem) (scope : String) : List ℕ :=
  let c := qaCandidateIdx items scope
  if c = [] then List.range items.length else c

/-- `retriever.py` lines 306-308: gather the candidate question vectors
and score each against the query vector. -/
def qaScores (Q : QARetriever) (e : String → List ℚ) (query : String)
    (candidate_indices : List ℕ) : List ℚ :=
  (candidate_indices.map (fun i => (Q.vectors.getD []).getD i [])).map
    (fun v => dot v (e query))

/-- `QARetriever.search` (`retriever.py` lines 268-315) with the
embed-and-normalise step abstracted as `e`; `product_name = none` models
Python's `None` argument. -/
def qaSearch (Q : QARetriever) (e : String → List ℚ) (query : String)
    (product_name : Option String) (top_k : ℕ) :
    List QAItem × List ℚ :=
  if Q.qa_items = [] ∨ Q.vectors = none then ([], [])
  else
    let candidate_indices := qaCandidates Q.qa_items (product_name.getD "overall")
    let scores := qaScores Q e query candidate_indices
    let sorted_indices := (argsortDesc scores).take top_k
    (sorted_indices.map (fun i => Q.qa_items.getD (candidate_indices.getD i 0) default),
     sorted_indices.map (fun i => scores.getD i 0))

/-- Specification-side comparison function for the QA scope-fallback
claim: the same ranking pipeline as `qaSearch`, but over the *entire*
item set (candidate indices `0..n-1`), which is what the spec says the
search degrades to when the scope filter matches nothing. -/
def qaSearchAll (Q : QARetriever) (e : String → List ℚ) (query : String)
    (top_k : ℕ) : List QAItem × List ℚ :=
  if Q.qa_items = [] ∨ Q.vectors = none then ([], [])
  else
    let candidate_indices := List.range Q.qa_items.length
    let scores := qaScores Q e query candidate_indices
    let sorted_indices := (argsortDesc scores).take top_k
    (sorted_indices.map (fun i => Q.qa_items.getD (candidate_indices.getD i 0) default),
     sorted_indices.map (fun i => scores.getD i 0))

/-- `query_analyzer.py` `QueryFilter.PRODUCT_LIST_KEYWORDS`. -/
def PRODUCT_LIST_KEYWORDS : List String :=
  ["有哪些產品", "甚麼產品", "什麼產品", "what products", "list products",
   "available models", "所有產品", "all products", "有哪幾台", "有哪幾款"]

/-- `query_analyzer.py` `QueryFilter.COMPARISON_KEYWORDS`. -/
def COMPARISON_KEYWORDS : List String :=
  ["比較", "差異", "差別", "不同", "compare", "comparison",
   "difference", "vs", "versus", "產品"]

/-- `QueryFilter.is_product_list_query` (`query_analyzer.py` lines 98-115):
true when any product-list keyword occurs (lower-cased) in the
lower-cased query. -/
def isProductListQuery (query : String) : Bool :=
  PRODUCT_LIST_KEYWORDS.any (fun kw => containsStr (lowerStr query) (lowerStr kw))

/-- `QueryFilter.is_comparison_query` (`query_analyzer.py` lines 117-134):
true when any comparison keyword occurs (lower-cased) in the
lower-cased query. -/
def isComparisonQuery (query : String) : Bool :=
  COMPARISON_KEYWORDS.any (fun kw => containsStr (lowerStr query) (lowerStr kw))

/-- `query_analyzer.py` `ProductNameExtractor` state: the dynamic
`(product_id, product_name)` list, plus the hard-coded fallback suffix
list which only exists when the dynamic list came up empty. -/
structure ProductNameExtractor where
  known_models : List (String × String)
  fallback_suffixes : Option (List String)
deriving Repr

/-- `ProductNameExtractor.__init__` (`query_analyzer.py` lines 149-170):
load the catalog pairs; materialise the fallback suffix list only when no
pair was loaded. -/
def extractorInit (product_list : List (String × String)) : ProductNameExtractor :=
  ⟨product_list, if product_list = [] then some ["BXH", "BYH", "BZH"] else none⟩

/-- `pid.split("-")[-1]`: the last `-`-delimited segment of a product id. -/
def splitDash : List Char → List (List Char)
  | [] => [[]]
  | c :: rest =>
    if c = '-' then [] :: splitDash rest
    else
      match splitDash rest with
      | [] => [[c]]
      | t :: ts => (c :: t) :: ts

/-- `pid.split("-")[-1]`: the last `-`-delimited segment of a product id. -/
def lastSegment (pid : String) : String :=
  ⟨(splitDash pid.data).getLastD []⟩

/-- `ProductNameExtractor.extract` (`query_analyzer.py` lines 172-200):
first catalog product whose upper-cased id suffix occurs in the
upper-cased query; else first matching fallback suffix (when the fallback
list exists); else `none`. -/
def extract (E : ProductNameExtractor) (query : String) : Option String :=
  let query_upper := upperStr query
  match E.known_models.find? (fun p => containsStr query_upper (upperStr (lastSegment p.1))) with
  | some p => some p.1
  | none =>
    match E.fallback_suffixes with
    | some suffixes =>
      match suffixes.find? (fun m => containsStr query_upper m) with
      | some m => some m
      | none => none
    | none => none

/-- The retrieval-mode classification implicit in the `if/elif` chain of
`RAGSystem._process_query` (`rag_engine.py` lines 106-134), in its fixed
priority order. -/
inductive Mode where
  | comparison
  | specificProduct
  | productList
  | general
deriving DecidableEq, Repr

/-- State of `RAGSystem` that `_process_query` reads: the indexed chunk
list and the product catalog (`product_id`, `product_name`) pairs. -/
structure RAGModel where
  chunks : List Chunk
  products : List (String × String)
deriving Repr

/-- The mode selected by the branch order of `rag_engine.py` lines
106-134: Comparison, else SpecificProduct (a product id extracted), else
ProductList, else General — first match wins. -/
def classifyMode (M : RAGModel) (q : String) : Mode :=
  if isComparisonQuery q then .comparison
  else if (extract (extractorInit M.products) q).isSome then .specificProduct
  else if isProductListQuery q then .productList
  else .general

/-- `c.metadata.get("key") == "Full Specs"`. -/
def isFullSpecs (c : Chunk) : Bool :=
  c.metadata.lookup "key" == some "Full Specs"

/-- Output of the mode-routed chunk-retrieval step of
`RAGSystem._process_query` (`rag_engine.py` lines 100-134). -/
structure StageOut where
  results : List Chunk
  scores : List ℚ
  facts : List String
  isComp : Bool
deriving Repr

/-- `rag_engine.py` lines 100-134: route the query.  Comparison bypasses
search and returns every Full-Specs chunk with synthetic score 1.0;
SpecificProduct searches the extracted product's chunks; ProductList
injects the deterministic product-name fact and searches all chunks;
General searches all chunks.  The index is the one built by `add_chunks`
over `M.chunks` with the same embedding `e`. -/
def retrievalStage (e : String → List ℚ) (M : RAGModel) (q : String) (k : ℕ) :
    StageOut :=
  let R := addChunks e M.chunks
  let extracted := extract (extractorInit M.products) q
  if isComparisonQuery q then
    let chunk_results := M.chunks.filter (fun c => isFullSpecs c)
    ⟨chunk_results, List.replicate chunk_results.length 1, [], true⟩
  else
    match extracted with
    | some pid =>
      let target := M.chunks.filter (fun c => c.metadata.lookup "product_id" == some pid)
      let r := chunkSearch R e q k (some target)
      ⟨r.1, r.2, [], false⟩
    | none =>
      if isProductListQuery q then
        let names := M.products.map (fun p => p.2)
        let fact := "FACT: The available products in the database are: " ++
          String.intercalate ", " names ++ "."
        let r := chunkSearch R e q k (some M.chunks)
        ⟨r.1, r.2, [fact], false⟩
      else
        let r := chunkSearch R e q k (some M.chunks)
        ⟨r.1, r.2, [], false⟩

/-- The dynamic Full-Specs inclusion flag of `rag_engine.py` lines
136-145: start at `true`, drop to `false` when a deterministic fact was
injected or when the top score exceeds 1.2, forced back to `true` in
comparison mode. -/
def includeFullSpecs (isComp : Bool) (facts : List String) (scores : List ℚ) : Bool :=
  let inc1 := if facts ≠ [] then false else true
  let inc2 := if scores ≠ [] ∧ scores.headD 0 > 6 / 5 then false else inc1
  if isComp then true else inc2

/-- The context-filtering loop of `rag_engine.py` lines 147-154: walk the
ranked (chunk, score) pairs in order, skipping Full-Specs chunks when the
inclusion flag is off. -/
def dynamicFilter (isComp : Bool) (facts : List String)
    (results : List Chunk) (scores : List ℚ) : List Chunk × List ℚ :=
  let keep := includeFullSpecs isComp facts scores
  let pairs := (results.zip scores).filter (fun p => keep || !isFullSpecs p.1)
  (pairs.map (fun p => p.1), pairs.map (fun p => p.2))

/-- The chunk half of `RAGSystem._process_query`: routed retrieval
followed by the dynamic Full-Specs filter (`rag_engine.py` lines
100-154). -/
def processChunks (e : String → List ℚ) (M : RAGModel) (q : String) (k : ℕ) :
    List Chunk × List ℚ :=
  let st := retrievalStage e M q k
  dynamicFilter st.isComp st.facts st.results st.scores

/-! ### Concrete instances used to exercise the model -/

/-- A degenerate normalised embedding mapping every text to the unit
vector `[1]`. -/
def eOne : String → List ℚ := fun _ => [1]

/-- A two-dimensional embedding separating the text "a" from everything
else. -/
def eMis : String → List ℚ := fun s => if s = "a" then [1, 0] else [0, 1]

/-- A minimal chunk with content "a". -/
def chA : Chunk := ⟨"a", []⟩

/-- A minimal chunk with content "b". -/
def chB : Chunk := ⟨"b", []⟩

/-- A Full-Specs rollup chunk for the product `aorus-master-16-bxh`. -/
def fsChunk : Chunk :=
  ⟨"Product: AORUS\nCategory: Overall Specification\nSpecification: Full Specs",
   [("product_id", "aorus-master-16-bxh"), ("product_name", "AORUS"),
    ("category", "Overall Specification"), ("key", "Full Specs")]⟩

/-- A CPU spec chunk for the product `aorus-master-16-bxh`. -/
def cpuChunk : Chunk :=
  ⟨"Product: AORUS\nCategory: Processor\nSpecification: CPU",
   [("product_id", "aorus-master-16-bxh"), ("product_name", "AORUS"),
    ("category", "Processor"), ("key", "CPU")]⟩

/-- A one-product system state over `fsChunk` and `cpuChunk`. -/
def mRag : RAGModel :=
  ⟨[fsChunk, cpuChunk], [("aorus-master-16-bxh", "AORUS MASTER 16 BXH")]⟩

/-- A QA item whose product name is the upper-cased string "OVERALL"
(not the literal sentinel "overall"). -/
def qaOv : QAItem := ⟨"q1", "a1", "OVERALL"⟩

/-- A QA item scoped to the product suffix "XYZ". -/
def qaXyz : QAItem := ⟨"q2", "a2", "XYZ"⟩

/-- A QA item with an empty product name (normalised to "overall" by the
search filter). -/
def qaEmptyPn : QAItem := ⟨"q3", "a3", ""⟩

/-- First of two QA items scoped to the same product "XYZ". -/
def qaX1 : QAItem := ⟨"q4", "a4", "XYZ"⟩

/-- Second of two QA items scoped to the same product "XYZ". -/
def qaX2 : QAItem := ⟨"q5", "a5", "XYZ"⟩

/-! ### Basic lemmas about the sorting core -/

lemma mem_insertKey {a x : ℚ × ℕ} {l : List (ℚ × ℕ)} :
    a ∈ insertKey x l ↔ a = x ∨ a ∈ l := by
  induction l with
  | nil => simp [insertKey]
  | cons y ys ih =>
    by_cases h : keyLe x y
    · simp [insertKey, h]
    · simp only [insertKey, if_neg h, List.mem_cons, ih]
      tauto

lemma mem_sortKeys {a : ℚ × ℕ} {l : List (ℚ × ℕ)} :
    a ∈ sortKeys l ↔ a ∈ l := by
  induction l with
  | nil => simp [sortKeys]
  | cons x xs ih => simp [sortKeys, mem_insertKey, ih]

lemma length_insertKey (x : ℚ × ℕ) (l : List (ℚ × ℕ)) :
    (insertKey x l).length = l.length + 1 := by
  induction l with
  | nil => simp [insertKey]
  | cons y ys ih =>
    by_cases h : keyLe x y
    · simp [insertKey, h]
    · simp [insertKey, h, ih]

lemma length_sortKeys (l : List (ℚ × ℕ)) :
    (sortKeys l).length = l.length := by
  induction l with
  | nil => simp [sortKeys]
  | cons x xs ih => simp [sortKeys, length_insertKey, ih]

lemma length_argsortDesc (s : List ℚ) :
    (argsortDesc s).length = s.length := by
  simp [argsortDesc, argsortAsc, length_sortKeys]

lemma mem_argsortDesc_lt {i : ℕ} {s : List ℚ} (h : i ∈ argsortDesc s) :
    i < s.length := by
  simp only [argsortDesc, List.mem_reverse, argsortAsc, List.mem_map] at h
  obtain ⟨p, hp, hpi⟩ := h
  rw [mem_sortKeys] at hp
  have := (List.of_mem_zip hp).2
  rw [List.mem_range] at this
  omega

/-! ### List plumbing lemmas -/

lemma getD_range_map {α β : Type} (l : List α) (f : α → β) (d : α) :
    (List.range l.length).map (fun i => f (l.getD i d)) = l.map f := by
  induction l with
  | nil => simp
  | cons a l' ih =>
    rw [List.length_cons, List.range_succ_eq_map, List.map_cons, List.map_map]
    simp only [Function.comp_def, List.getD_cons_zero, List.getD_cons_succ]
    rw [ih, List.map_cons]

lemma zip_filter_map_fst {α β : Type} (p : α → Bool) :
    ∀ (l : List α) (s : List β), l.length = s.length →
      ((l.zip s).filter (fun pr => p pr.1)).map (fun pr => pr.1) = l.filter p
  | [], _, _ => by simp
  | a :: l', [], h => by simp at h
  | a :: l', b :: s', h => by
    have ih := zip_filter_map_fst p l' s' (by simpa using h)
    simp only [List.zip_cons_cons, List.filter_cons]
    by_cases hp : p a
    · simp [hp, ih]
    · simp [hp, ih]

/-! ### Candidate resolution against a corpus built by `addChunks` -/

lemma pyIndex_getD (e : String → List ℚ) :
    ∀ (cs : List Chunk) (t : Chunk), t ∈ cs →
      ∃ j, pyIndex cs t = some j ∧
        (cs.map (fun c => e c.content)).getD j [] = e t.content := by
  intro cs
  induction cs with
  | nil => intro t ht; simp at ht
  | cons c rest ih =>
    intro t ht
    by_cases hc : c = t
    · exact ⟨0, by simp [pyIndex, hc], by simp [hc]⟩
    · have ht' : t ∈ rest := by
        rcases List.mem_cons.mp ht with h | h
        · exact absurd h.symm hc
        · exact h
      obtain ⟨j, hj, hv⟩ := ih t ht'
      exact ⟨j + 1, by simp [pyIndex, hc, hj], by simpa using hv⟩

lemma resolveVectors_addChunks (e : String → List ℚ) (cs : List Chunk) :
    ∀ (tgt : List Chunk), (∀ t ∈ tgt, t ∈ cs) →
      resolveVectors (addChunks e cs) tgt = tgt.map (fun t => e t.content) := by
  intro tgt
  induction tgt with
  | nil => intro _; simp [resolveVectors]
  | cons t ts ih =>
    intro hmem
    obtain ⟨j, hj, hv⟩ := pyIndex_getD e cs t (hmem t (List.mem_cons_self t ts))
    have hrest := ih (fun x hx => hmem x (List.mem_cons_of_mem t hx))
    simp only [resolveVectors, addChunks, List.filterMap_cons] at hrest ⊢
    rw [hj, Option.map_some']
    rw [hv, hrest, List.map_cons]

lemma addChunks_chunks (e : String → List ℚ) (cs : List Chunk) :
    (addChunks e cs).chunks = cs := rfl

lemma searchFinalScores_length (R : ChunkRetriever) (e : String → List ℚ)
    (q : String) (tgt : List Chunk) :
    (searchFinalScores R e q tgt).length = (resolveVectors R tgt).length := by
  simp [searchFinalScores]

lemma searchFinalScores_getD (e : String → List ℚ) (cs : List Chunk) (q : String)
    (tgt : List Chunk) (hmem : ∀ t ∈ tgt, t ∈ cs) (j : ℕ) (hj : j < tgt.length) :
    (searchFinalScores (addChunks e cs) e q tgt).getD j 0 =
      cosineSim e (tgt.getD j default) q + kwBonus q (tgt.getD j default) := by
  have hres := resolveVectors_addChunks e cs tgt hmem
  simp only [searchFinalScores, hres, List.map_map, List.length_map]
  rw [List.getD_eq_getElem _ _ (by simpa using hj), List.getElem_map,
    List.getElem_range]
  congr 1
  rw [List.getD_eq_getElem _ _ (by simpa using hj), List.getElem_map,
    List.getD_eq_getElem _ _ hj]
  rfl

/-! ### Length and filter lemmas for the orchestrator -/

lemma chunkSearch_length (R : ChunkRetriever) (e : String → List ℚ) (q : String)
    (k : ℕ) (cands : Option (List Chunk)) :
    (chunkSearch R e q k cands).1.length = (chunkSearch R e q k cands).2.length := by
  by_cases h1 : cands.getD R.chunks = []
  · simp [chunkSearch, h1]
  · by_cases h2 : resolveVectors R (cands.getD R.chunks) = []
    · simp [chunkSearch, h1, h2]
    · simp [chunkSearch, h1, h2]

lemma retrievalStage_length (e : String → List ℚ) (M : RAGModel) (q : String) (k : ℕ) :
    (retrievalStage e M q k).results.length = (retrievalStage e M q k).scores.length := by
  by_cases hc : isComparisonQuery q
  · simp [retrievalStage, hc]
  · cases hext : extract (extractorInit M.products) q with
    | some pid => simp [retrievalStage, hc, hext, chunkSearch_length]
    | none =>
      by_cases hpl : isProductListQuery q
      · simp [retrievalStage, hc, hext, hpl, chunkSearch_length]
      · simp [retrievalStage, hc, hext, hpl, chunkSearch_length]

lemma includeFullSpecs_comp (facts : List String) (scores : List ℚ) :
    includeFullSpecs true facts scores = true := by
  simp [includeFullSpecs]

lemma includeFullSpecs_noComp_iff (facts : List String) (scores : List ℚ) :
    includeFullSpecs false facts scores = false ↔
      (facts ≠ [] ∨ (scores ≠ [] ∧ scores.headD 0 > 6 / 5)) := by
  by_cases h1 : facts = [] <;>
    by_cases h2 : scores ≠ [] ∧ scores.headD 0 > 6 / 5 <;>
      simp [includeFullSpecs, h1, h2]

lemma dynamicFilter_keep (ic : Bool) (facts : List String)
    (res : List Chunk) (sc : List ℚ)
    (h : includeFullSpecs ic facts sc = true) (hlen : res.length = sc.length) :
    dynamicFilter ic facts res sc = (res, sc) := by
  simp only [dynamicFilter, h, Bool.true_or, List.filter_true]
  rw [List.map_fst_zip _ _ hlen.le, List.map_snd_zip _ _ hlen.ge]

lemma dynamicFilter_drop (ic : Bool) (facts : List String)
    (res : List Chunk) (sc : List ℚ)
    (h : includeFullSpecs ic facts sc = false) (hlen : res.length = sc.length) :
    (dynamicFilter ic facts res sc).1 = res.filter (fun c => !isFullSpecs c) ∧
    (dynamicFilter ic facts res sc).2 =
      ((res.zip sc).filter (fun p => !isFullSpecs p.1)).map (fun p => p.2) := by
  simp only [dynamicFilter, h, Bool.false_or]
  exact ⟨zip_filter_map_fst (fun c => !isFullSpecs c) res sc hlen, trivial⟩

lemma take_map_take {β : Type} (f : ℕ → β) (l : List ℕ) (n : ℕ) :
    (l.take n).map f = ((l.take (n + 1)).map f).take n := by
  rw [List.map_take, List.map_take, List.take_take, min_eq_left (Nat.le_succ n)]

/-! ### Claim theorems -/

/-- C3: for every query classified as Comparison, the chunk-retrieval step
returns exactly the chunks whose metadata key equals "Full Specs" (in
corpus order), each paired with the synthetic score 1.0, and
`ChunkRetriever.search` is not invoked — the step's output does not depend
on the embedding function at all. -/
theorem comparison_bypass_full_specs (e : String → List ℚ) (M : RAGModel)
    (q : String) (k : ℕ) (h : isComparisonQuery q = true) :
    (retrievalStage e M q k).results = M.chunks.filter (fun c => isFullSpecs c) ∧
    (retrievalStage e M q k).scores =
      List.replicate (M.chunks.filter (fun c => isFullSpecs c)).length (1 : ℚ) ∧
    ∀ e' : String → List ℚ, retrievalStage e' M q k = retrievalStage e M q k := by
  refine ⟨by simp [retrievalStage, h], by simp [retrievalStage, h], fun e' => ?_⟩
  simp [retrievalStage, h]

/-- C3 witness: a concrete comparison query over the one-product corpus
returns the Full-Specs chunk with score 1, independently of the
embedder. -/
theorem comparison_bypass_full_specs_witness :
    isComparisonQuery "compare them" = true ∧
    (retrievalStage eOne mRag "compare them" 3).results = [fsChunk] ∧
    (retrievalStage eOne mRag "compare them" 3).scores = [1] ∧
    retrievalStage eMis mRag "compare them" 3 = retrievalStage eOne mRag "compare them" 3 := by
  have h := comparison_bypass_full_specs eOne mRag "compare them" 3 (by decide)
  exact ⟨by decide, by rw [h.1]; decide, by rw [h.2.1]; decide, h.2.2 eMis⟩

/-- C4: mode classification is evaluated in fixed priority order with
Comparison first: a query that both contains a comparison keyword and has
an extractable product id is classified Comparison and takes the
Full-Specs bypass path, not the product-restricted SpecificProduct
path. -/
theorem mode_priority_comparison_first (e : String → List ℚ) (M : RAGModel)
    (q : String) (k : ℕ) (h1 : isComparisonQuery q = true)
    (_h2 : (extract (extractorInit M.products) q).isSome = true) :
    classifyMode M q = Mode.comparison ∧
    Mode.comparison ≠ Mode.specificProduct ∧
    (retrievalStage e M q k).isComp = true ∧
    (retrievalStage e M q k).results = M.chunks.filter (fun c => isFullSpecs c) := by
  refine ⟨by simp [classifyMode, h1], by decide, ?_, ?_⟩
  · simp [retrievalStage, h1]
  · simp [retrievalStage, h1]

/-- C4 witness: "compare BXH" contains the comparison keyword "compare"
and the extractable product suffix "BXH"; it is classified Comparison. -/
theorem mode_priority_comparison_first_witness :
    classifyMode mRag "compare BXH" = Mode.comparison ∧
    (retrievalStage eOne mRag "compare BXH" 3).isComp = true := by
  have h := mode_priority_comparison_first eOne mRag "compare BXH" 3 (by decide) (by decide)
  exact ⟨h.1, h.2.2.1⟩

/-- C9: with a non-empty catalog, `ProductNameExtractor.extract` returns
the product id of the first product in catalog order whose upper-cased id
suffix (last `-`-delimited segment) occurs as a substring of the
upper-cased query, and `none` when no suffix occurs; the hard-coded
fallback list is never consulted. -/
theorem extract_first_suffix_match (ps : List (String × String)) (q : String)
    (h : ps ≠ []) :
    extract (extractorInit ps) q =
      (ps.find? (fun p => containsStr (upperStr q) (upperStr (lastSegment p.1)))).map
        (fun p => p.1) := by
  unfold extract extractorInit
  simp only [if_neg h]
  cases hf : ps.find? (fun p => containsStr (upperStr q) (upperStr (lastSegment p.1))) with
  | none => simp [hf]
  | some p => simp [hf]

/-- C9 witness: over the one-product catalog, "tell me about bxh specs"
matches the suffix BXH and returns the full product id; a query without
the suffix returns `none`. -/
theorem extract_first_suffix_match_witness :
    extract (extractorInit [("aorus-master-16-bxh", "AORUS MASTER 16 BXH")])
        "tell me about bxh specs" = some "aorus-master-16-bxh" ∧
    extract (extractorInit [("aorus-master-16-bxh", "AORUS MASTER 16 BXH")])
        "hello" = none := by
  constructor
  · rw [extract_first_suffix_match _ _ (by decide)]; decide
  · rw [extract_first_suffix_match _ _ (by decide)]; decide

/-- C8: empty-result conditions are not errors.  If no supplied candidate
resolves against the corpus (in particular if the corpus or candidate
list is empty), `ChunkRetriever.search` returns two empty sequences; if
the QA index holds zero items, `QARetriever.search` returns two empty
sequences without consulting the embedding function. -/
theorem empty_results_not_errors (R : ChunkRetriever) (e : String → List ℚ)
    (q : String) (k : ℕ) (cands : Option (List Chunk)) (Q : QARetriever)
    (e₁ e₂ : String → List ℚ) (q' : String) (pn : Option String) (k' : ℕ)
    (hres : resolveVectors R (cands.getD R.chunks) = [])
    (hqa : Q.qa_items = []) :
    chunkSearch R e q k cands = ([], []) ∧
    qaSearch Q e₁ q' pn k' = ([], []) ∧
    qaSearch Q e₁ q' pn k' = qaSearch Q e₂ q' pn k' := by
  refine ⟨?_, ?_, ?_⟩
  · by_cases h1 : cands.getD R.chunks = []
    · simp [chunkSearch, h1]
    · simp [chunkSearch, h1, hres]
  · simp [qaSearch, hqa]
  · simp [qaSearch, hqa]

/-- C8 witness: a candidate list disjoint from the corpus yields two empty
sequences, and an empty QA index yields two empty sequences for any two
embedders. -/
theorem empty_results_not_errors_witness :
    chunkSearch (addChunks eOne [chA]) eOne "x" 3 (some [chB]) = ([], []) ∧
    qaSearch ⟨[], none⟩ eOne "y" none 2 = ([], []) ∧
    qaSearch ⟨[], none⟩ eOne "y" none 2 = qaSearch ⟨[], none⟩ eMis "y" none 2 := by
  exact empty_results_not_errors (addChunks eOne [chA]) eOne "x" 3 (some [chB])
    ⟨[], none⟩ eOne eMis "y" none 2 (by decide) (by decide)

/-- C6: top-k prefix monotonicity.  For a fixed corpus, query and
candidate set, the ranked chunks and scores returned with `top_k = n` are
the length-`n` prefix of those returned with `top_k = n + 1`, for both
`ChunkRetriever.search` and `QARetriever.search`: the underlying score
ordering does not depend on `top_k`, only the truncation length does. -/
theorem topk_truncation_monotone (R : ChunkRetriever) (e : String → List ℚ)
    (q : String) (cands : Option (List Chunk)) (Q : QARetriever)
    (e' : String → List ℚ) (q' : String) (pn : Option String) (n : ℕ) :
    (chunkSearch R e q n cands).1 = ((chunkSearch R e q (n + 1) cands).1).take n ∧
    (chunkSearch R e q n cands).2 = ((chunkSearch R e q (n + 1) cands).2).take n ∧
    (qaSearch Q e' q' pn n).1 = ((qaSearch Q e' q' pn (n + 1)).1).take n ∧
    (qaSearch Q e' q' pn n).2 = ((qaSearch Q e' q' pn (n + 1)).2).take n := by
  have hc : (chunkSearch R e q n cands).1 = ((chunkSearch R e q (n + 1) cands).1).take n ∧
      (chunkSearch R e q n cands).2 = ((chunkSearch R e q (n + 1) cands).2).take n := by
    by_cases h1 : cands.getD R.chunks = []
    · simp [chunkSearch, h1]
    · by_cases h2 : resolveVectors R (cands.getD R.chunks) = []
      · simp [chunkSearch, h1, h2]
      · simp only [chunkSearch, h1, h2, if_neg, if_true, ite_false]
        exact ⟨take_map_take _ _ n, take_map_take _ _ n⟩
  have hq : (qaSearch Q e' q' pn n).1 = ((qaSearch Q e' q' pn (n + 1)).1).take n ∧
      (qaSearch Q e' q' pn n).2 = ((qaSearch Q e' q' pn (n + 1)).2).take n := by
    by_cases h1 : Q.qa_items = [] ∨ Q.vectors = none
    · simp [qaSearch, h1]
    · simp only [qaSearch, h1, if_neg, if_true, ite_false]
      exact ⟨take_map_take _ _ n, take_map_take _ _ n⟩
  exact ⟨hc.1, hc.2, hq.1, hq.2⟩

/-- C10 counterexample: the claim says a `None` scope "selects exactly the
items whose product_name is "overall", falling back to the whole set if
there are none".  With items named "OVERALL" and "XYZ" no product_name
equals "overall", so the claim predicts a fallback to the whole set and
two returned items at `top_k = 2`; the code's case-insensitive filter
instead selects only the "OVERALL" item and returns a single item. -/
theorem qa_none_scope_cex :
    (qaSearch (qaLoad eOne [qaOv, qaXyz]) eOne "z" none 2).1 = [qaOv] ∧
    ([qaOv, qaXyz].filter (fun it => it.product_name == "overall")).length = 0 ∧
    [qaOv, qaXyz].length = 2 := by
  refine ⟨?_, by decide, by decide⟩
  simp +decide [qaSearch, qaLoad, qaScores, qaCandidates, qaCandidateIdx, pnNorm, upperStr,
    qaOv, qaXyz, eOne, dot, List.range_succ, argsortDesc, argsortAsc, sortKeys, insertKey, keyLe]

/-- C10 (amended): `QARetriever.search` with `product_name = None` returns
exactly the same (items, scores) as with `product_name = "overall"` — the
`None` scope is normalised to the sentinel before filtering; the filter
then selects exactly the items whose product name, normalised (empty →
"overall"), *case-insensitively* equals "overall" (falling back to the
whole set if there are none). -/
theorem qa_none_scope_amended :
    (∀ (Q : QARetriever) (e : String → List ℚ) (q : String) (k : ℕ),
      qaSearch Q e q none k = qaSearch Q e q (some "overall") k) ∧
    (∀ items : List QAItem,
      qaCandidateIdx items "overall" =
        (List.range items.length).filter
          (fun i => upperStr (pnNorm (items.getD i default)) == "OVERALL")) := by
  constructor
  · intro Q e q k; rfl
  · intro items
    apply List.filter_congr
    intro i _
    by_cases hpn : pnNorm (items.getD i default) == "overall"
    · have heq : pnNorm (items.getD i default) = "overall" := by
        exact eq_of_beq hpn
      rw [heq]
      decide
    · simp only [hpn, Bool.or_false]
      rfl

/-- C2: the dynamic Full-Specs inclusion policy of `_process_query`.  In a
non-Comparison mode a Full-Specs chunk is removed from the ranked result
list exactly when a deterministic fact string was injected or the
top-ranked chunk's hybrid score exceeds 1.2 (surviving chunks keep their
rank order — the output is a filter of the ranked list, with no re-run of
search); in Comparison mode the list is passed through unchanged; and a
fact string is injected exactly in ProductList mode. -/
theorem full_specs_inclusion_policy (e : String → List ℚ) (M : RAGModel)
    (q : String) (k : ℕ) (st : StageOut) (hst : st = retrievalStage e M q k) :
    (st.isComp = true → processChunks e M q k = (st.results, st.scores)) ∧
    (st.isComp = false →
      ((st.facts ≠ [] ∨ (st.scores ≠ [] ∧ st.scores.headD 0 > 6 / 5)) →
        (processChunks e M q k).1 = st.results.filter (fun c => !isFullSpecs c) ∧
        (processChunks e M q k).2 =
          ((st.results.zip st.scores).filter (fun p => !isFullSpecs p.1)).map
            (fun p => p.2)) ∧
      ((st.facts = [] ∧ ¬(st.scores ≠ [] ∧ st.scores.headD 0 > 6 / 5)) →
        processChunks e M q k = (st.results, st.scores))) ∧
    (st.facts ≠ [] ↔
      st.isComp = false ∧ extract (extractorInit M.products) q = none ∧
        isProductListQuery q = true) := by
  have hlen : st.results.length = st.scores.length := by
    rw [hst]; exact retrievalStage_length e M q k
  have hpc : processChunks e M q k = dynamicFilter st.isComp st.facts st.results st.scores := by
    rw [hst]; rfl
  refine ⟨?_, ?_, ?_⟩
  · intro hic
    rw [hpc, dynamicFilter_keep _ _ _ _ (by rw [hic]; exact includeFullSpecs_comp _ _) hlen]
  · intro hic
    constructor
    · intro hcond
      have hkeep : includeFullSpecs st.isComp st.facts st.scores = false := by
        rw [hic]; exact (includeFullSpecs_noComp_iff _ _).mpr hcond
      rw [hpc]
      exact dynamicFilter_drop _ _ _ _ hkeep hlen
    · intro hcond
      have hkeep : includeFullSpecs st.isComp st.facts st.scores = true := by
        rw [hic]
        by_contra hk
        have := (includeFullSpecs_noComp_iff st.facts st.scores).mp
          (Bool.not_eq_true _ ▸ (by simpa using hk))
        rcases this with h | h
        · exact h hcond.1
        · exact hcond.2 h
      rw [hpc, dynamicFilter_keep _ _ _ _ hkeep hlen]
  · rw [hst]
    by_cases hc : isComparisonQuery q
    · simp [retrievalStage, hc]
    · cases hext : extract (extractorInit M.products) q with
      | some pid => simp [retrievalStage, hc, hext]
      | none =>
        by_cases hpl : isProductListQuery q
        · simp [retrievalStage, hc, hext, hpl]
        · simp [retrievalStage, hc, hext, hpl]

/-- C2 witness: on a concrete General-mode query over the one-product
corpus with all hybrid scores equal to 1 (≤ 1.2) and no fact injected,
the filter passes the ranked list through unchanged. -/
theorem full_specs_inclusion_policy_witness :
    processChunks eOne mRag "hello" 2 =
      ((retrievalStage eOne mRag "hello" 2).results,
       (retrievalStage eOne mRag "hello" 2).scores) := by
  have h := full_specs_inclusion_policy eOne mRag "hello" 2
    (retrievalStage eOne mRag "hello" 2) rfl
  refine (h.2.1 ?_).2 ⟨?_, ?_⟩
  · simp +decide [retrievalStage, extractorInit, extract, lastSegment, splitDash, upperStr,
      containsStr, containsChars, mRag, fsChunk, cpuChunk]
  · simp +decide [retrievalStage, extractorInit, extract, lastSegment, splitDash, upperStr,
      containsStr, containsChars, mRag, fsChunk, cpuChunk]
  · intro hcond
    have hsc : (retrievalStage eOne mRag "hello" 2).scores = [1, 1] := by
      simp +decide [retrievalStage, extractorInit, extract, lastSegment, splitDash, upperStr,
        containsStr, containsChars, mRag, fsChunk, cpuChunk, chunkSearch, searchFinalScores,
        resolveVectors, addChunks, pyIndex, eOne, dot, kwBonus, overlapCnt, tokenSet,
        pyTokens, lowerStr, wsTokens, List.range_succ, argsortDesc, argsortAsc, sortKeys,
        insertKey, keyLe]
    rw [hsc] at hcond
    norm_num at hcond

/-- C1 counterexample: over the corpus `[chA]`, searching with the
candidate list `[chB, chA]` (where `chB` is not in the corpus, so it is
"skipped" by the resolution loop) returns the scored candidate `chB` with
hybrid score 0 — the cosine score of `chA`'s vector — although `chB`'s own
cosine similarity plus keyword bonus is 1.  The claimed equation fails for
this call because the skip misaligns the vector scores with the candidate
list. -/
theorem hybrid_score_cex :
    (chunkSearch (addChunks eMis [chA]) eMis "qq" 1 (some [chB, chA])) = ([chB], [0]) ∧
    cosineSim eMis chB "qq" + kwBonus "qq" chB = 1 := by
  constructor
  · simp +decide [chunkSearch, searchFinalScores, resolveVectors, addChunks, pyIndex,
      eMis, chA, chB, dot, kwBonus, overlapCnt, tokenSet, pyTokens, lowerStr, wsTokens,
      containsStr, containsChars, List.range_succ, argsortDesc, argsortAsc, sortKeys,
      insertKey, keyLe]
  · simp +decide [cosineSim, eMis, chA, chB, dot, kwBonus, overlapCnt, tokenSet, pyTokens,
      lowerStr, wsTokens, containsStr, containsChars]

/-- C1 (amended): provided every supplied candidate occurs in the indexed
corpus (always the case for the orchestrator, which passes subsets of the
corpus), every scored candidate's hybrid score equals its cosine
similarity (dot product of the normalised chunk vector with the
normalised query vector) plus `min(0.05·overlap, 0.5)`; and a candidate
with zero overlapping query tokens has keyword bonus 0, so its hybrid
score equals its cosine similarity exactly. -/
theorem hybrid_score_amended (e : String → List ℚ) (cs : List Chunk) (q : String)
    (k : ℕ) (cands : Option (List Chunk))
    (hmem : ∀ c ∈ cands.getD cs, c ∈ cs) :
    (∀ i, i < ((chunkSearch (addChunks e cs) e q k cands).1).length →
      ((chunkSearch (addChunks e cs) e q k cands).2).getD i 0 =
        cosineSim e (((chunkSearch (addChunks e cs) e q k cands).1).getD i default) q
          + kwBonus q (((chunkSearch (addChunks e cs) e q k cands).1).getD i default)) ∧
    (∀ c : Chunk, overlapCnt q c = 0 → kwBonus q c = 0) := by
  constructor
  · intro i hi
    have hgetD : cands.getD ((addChunks e cs).chunks) = cands.getD cs := rfl
    by_cases h1 : cands.getD cs = []
    · simp [chunkSearch, hgetD, h1] at hi
    · by_cases h2 : resolveVectors (addChunks e cs) (cands.getD cs) = []
      · simp [chunkSearch, hgetD, h1, h2] at hi
      · have hsrch : chunkSearch (addChunks e cs) e q k cands =
            (((argsortDesc (searchFinalScores (addChunks e cs) e q (cands.getD cs))).take k).map
              (fun j => (cands.getD cs).getD j default),
             ((argsortDesc (searchFinalScores (addChunks e cs) e q (cands.getD cs))).take k).map
              (fun j => (searchFinalScores (addChunks e cs) e q (cands.getD cs)).getD j 0)) := by
          simp [chunkSearch, hgetD, h1, h2]
        rw [hsrch] at hi ⊢
        simp only [List.length_map] at hi
        rw [List.getD_eq_getElem _ _ (by simpa using hi),
            List.getD_eq_getElem _ _ (by simpa using hi),
            List.getElem_map, List.getElem_map]
        set tops := (argsortDesc (searchFinalScores (addChunks e cs) e q (cands.getD cs))).take k with htops
        have hmemj : tops[i] ∈ argsortDesc (searchFinalScores (addChunks e cs) e q (cands.getD cs)) :=
          List.mem_of_mem_take (List.getElem_mem hi)
        have hjlt : tops[i] < (searchFinalScores (addChunks e cs) e q (cands.getD cs)).length :=
          mem_argsortDesc_lt hmemj
        have hfslen : (searchFinalScores (addChunks e cs) e q (cands.getD cs)).length =
            (cands.getD cs).length := by
          rw [searchFinalScores_length, resolveVectors_addChunks e cs _ hmem, List.length_map]
        exact searchFinalScores_getD e cs q (cands.getD cs) hmem tops[i] (hfslen ▸ hjlt)
  · intro c h
    rw [kwBonus, h]
    norm_num

/-- C1 witness: for the two-chunk corpus searched with its own chunks as
candidates, the top-ranked chunk's returned score equals its cosine
similarity plus its keyword bonus. -/
theorem hybrid_score_amended_witness :
    ((chunkSearch (addChunks eOne [chA, chB]) eOne "zz" 2 none).2).getD 0 0 =
      cosineSim eOne (((chunkSearch (addChunks eOne [chA, chB]) eOne "zz" 2 none).1).getD 0 default) "zz"
        + kwBonus "zz" (((chunkSearch (addChunks eOne [chA, chB]) eOne "zz" 2 none).1).getD 0 default) := by
  refine (hybrid_score_amended eOne [chA, chB] "zz" 2 none (fun c hc => hc)).1 0 ?_
  simp +decide [chunkSearch, searchFinalScores, resolveVectors, addChunks, pyIndex,
    eOne, chA, chB, dot, kwBonus, overlapCnt, tokenSet, pyTokens, lowerStr, wsTokens,
    containsStr, containsChars, List.range_succ, argsortDesc, argsortAsc, sortKeys,
    insertKey, keyLe]

/-! ### The argsort places tied scores in descending original-index order -/

lemma firstPos_lt_length {α : Type} [DecidableEq α] {x : α} :
    ∀ {l : List α}, x ∈ l → firstPos x l < l.length := by
  intro l
  induction l with
  | nil => intro hx; simp at hx
  | cons y ys ih =>
    intro hx
    by_cases h : y = x
    · simp [firstPos, h]
    · have hx' : x ∈ ys := by
        rcases List.mem_cons.mp hx with h' | h'
        · exact absurd h'.symm h
        · exact h'
      simp only [firstPos, if_neg h, List.length_cons]
      exact Nat.succ_lt_succ (ih hx')

lemma get_firstPos {α : Type} [DecidableEq α] {x : α} :
    ∀ {l : List α} (hx : x ∈ l), l.get ⟨firstPos x l, firstPos_lt_length hx⟩ = x := by
  intro l
  induction l with
  | nil => intro hx; simp at hx
  | cons y ys ih =>
    intro hx
    by_cases h : y = x
    · simp [firstPos, h]
    · have hx' : x ∈ ys := by
        rcases List.mem_cons.mp hx with h' | h'
        · exact absurd h'.symm h
        · exact h'
      have hstep : (y :: ys).get ⟨firstPos x (y :: ys), firstPos_lt_length hx⟩ =
          ys.get ⟨firstPos x ys, firstPos_lt_length hx'⟩ := by
        simp [firstPos, if_neg h]
      rw [hstep]
      exact ih hx'

lemma firstPos_getElem {α : Type} [DecidableEq α] :
    ∀ {l : List α}, l.Nodup → ∀ (i : ℕ) (hi : i < l.length),
      firstPos (l[i]) l = i := by
  intro l
  induction l with
  | nil => intro _ i hi; simp at hi
  | cons y ys ih =>
    intro hnd i hi
    cases i with
    | zero => simp [firstPos]
    | succ n =>
      have hn : n < ys.length := by simpa using hi
      have hne : y ≠ ys[n] := by
        intro h
        exact (List.nodup_cons.mp hnd).1 (h ▸ List.getElem_mem hn)
      simp only [List.getElem_cons_succ, firstPos, if_neg hne]
      rw [ih (List.nodup_cons.mp hnd).2 n hn]

lemma keyLe_iff (x y : ℚ × ℕ) :
    keyLe x y = true ↔ (x.1 < y.1 ∨ (x.1 = y.1 ∧ x.2 ≤ y.2)) := by
  simp [keyLe]

lemma keyLe_total_prop : ∀ x y : ℚ × ℕ, keyLe x y = true ∨ keyLe y x = true := by
  intro x y
  rw [keyLe_iff, keyLe_iff]
  rcases lt_trichotomy x.1 y.1 with h | h | h
  · exact Or.inl (Or.inl h)
  · rcases Nat.le_total x.2 y.2 with h2 | h2
    · exact Or.inl (Or.inr ⟨h, h2⟩)
    · exact Or.inr (Or.inr ⟨h.symm, h2⟩)
  · exact Or.inr (Or.inl h)

lemma keyLe_trans_prop : ∀ x y z : ℚ × ℕ,
    keyLe x y = true → keyLe y z = true → keyLe x z = true := by
  intro x y z hxy hyz
  rw [keyLe_iff] at hxy hyz ⊢
  rcases hxy with h1 | ⟨h1, h1'⟩ <;> rcases hyz with h2 | ⟨h2, h2'⟩
  · exact Or.inl (h1.trans h2)
  · exact Or.inl (h2 ▸ h1)
  · exact Or.inl (h1 ▸ h2)
  · exact Or.inr ⟨h1.trans h2, h1'.trans h2'⟩

lemma insertKey_eq_orderedInsert (x : ℚ × ℕ) (l : List (ℚ × ℕ)) :
    insertKey x l = List.orderedInsert (fun a b => keyLe a b = true) x l := by
  induction l with
  | nil => rfl
  | cons y ys ih =>
    by_cases h : keyLe x y = true
    · simp [insertKey, List.orderedInsert, h]
    · simp [insertKey, List.orderedInsert, h, ih]

lemma sortKeys_eq_insertionSort (l : List (ℚ × ℕ)) :
    sortKeys l = List.insertionSort (fun a b => keyLe a b = true) l := by
  induction l with
  | nil => rfl
  | cons x xs ih =>
    simp only [sortKeys, List.insertionSort, ih, insertKey_eq_orderedInsert]

lemma sortKeys_pairwise (l : List (ℚ × ℕ)) :
    List.Pairwise (fun x y => keyLe x y = true) (sortKeys l) := by
  rw [sortKeys_eq_insertionSort]
  haveI : IsTotal (ℚ × ℕ) (fun x y => keyLe x y = true) := ⟨keyLe_total_prop⟩
  haveI : IsTrans (ℚ × ℕ) (fun x y => keyLe x y = true) := ⟨keyLe_trans_prop⟩
  exact List.sorted_insertionSort _ l

lemma sortKeys_perm (l : List (ℚ × ℕ)) : (sortKeys l).Perm l := by
  rw [sortKeys_eq_insertionSort]
  exact List.perm_insertionSort _ l

lemma pairwise_firstPos_lt {l : List (ℚ × ℕ)}
    (hp : List.Pairwise (fun x y => keyLe x y = true) l) {a b : ℚ × ℕ}
    (ha : a ∈ l) (hb : b ∈ l) (hne : a ≠ b) (hr : ¬ keyLe b a = true) :
    firstPos a l < firstPos b l := by
  have hal : firstPos a l < l.length := firstPos_lt_length ha
  have hbl : firstPos b l < l.length := firstPos_lt_length hb
  have hga : l[firstPos a l] = a := by
    have h := get_firstPos ha
    rwa [List.get_eq_getElem] at h
  have hgb : l[firstPos b l] = b := by
    have h := get_firstPos hb
    rwa [List.get_eq_getElem] at h
  rcases lt_trichotomy (firstPos a l) (firstPos b l) with h | h | h
  · exact h
  · exfalso
    apply hne
    rw [← hga, ← hgb]
    simp only [h]
  · exfalso
    apply hr
    have h2 := List.pairwise_iff_getElem.mp hp _ _ hbl hal h
    rwa [hga, hgb] at h2

lemma argsortAsc_perm_range (s : List ℚ) :
    (argsortAsc s).Perm (List.range s.length) := by
  have h2 := (sortKeys_perm (s.zip (List.range s.length))).map (fun p : ℚ × ℕ => p.2)
  have h3 : (s.zip (List.range s.length)).map (fun p : ℚ × ℕ => p.2) =
      List.range s.length := by
    have h := List.map_snd_zip s (List.range s.length)
      (le_of_eq (List.length_range s.length))
    simpa using h
  rw [h3] at h2
  exact h2

lemma argsortAsc_nodup (s : List ℚ) : (argsortAsc s).Nodup :=
  (argsortAsc_perm_range s).nodup_iff.mpr (List.nodup_range s.length)

lemma firstPos_reverse_of_nodup {l : List ℕ} (h : l.Nodup) {x : ℕ} (hx : x ∈ l) :
    firstPos x l.reverse = l.length - 1 - firstPos x l := by
  have hp : firstPos x l < l.length := firstPos_lt_length hx
  have hrl : l.length - 1 - firstPos x l < l.reverse.length := by
    rw [List.length_reverse]; omega
  have hgx : l[firstPos x l] = x := by
    have h2 := get_firstPos hx
    rwa [List.get_eq_getElem] at h2
  have hrev : l.reverse[l.length - 1 - firstPos x l] = x := by
    rw [List.getElem_reverse]
    convert hgx using 2
    omega
  have hnr : l.reverse.Nodup := by simpa using h
  calc firstPos x l.reverse
      = firstPos (l.reverse[l.length - 1 - firstPos x l]) l.reverse := by rw [hrev]
    _ = l.length - 1 - firstPos x l := firstPos_getElem hnr _ hrl

/-- The core tie-order fact about the selection step
`np.argsort(scores)[::-1]`: for any two tied positions `i < j` of the
score list — whatever the other scores are — index `j` occupies a
strictly earlier position of the descending ranking than index `i`. -/
lemma argsortDesc_tie_before (s : List ℚ) (i j : ℕ) (hij : i < j) (hj : j < s.length)
    (htie : s.getD i 0 = s.getD j 0) :
    firstPos j (argsortDesc s) < firstPos i (argsortDesc s) ∧
    firstPos i (argsortDesc s) < (argsortDesc s).length := by
  have hi : i < s.length := hij.trans hj
  have hzlen : (s.zip (List.range s.length)).length = s.length := by
    rw [List.length_zip, List.length_range, min_self]
  have hiz : i < (s.zip (List.range s.length)).length := by omega
  have hjz : j < (s.zip (List.range s.length)).length := by omega
  have hgi : (s.zip (List.range s.length))[i] = (s[i], i) := by
    rw [List.getElem_zip]
    simp
  have hgj : (s.zip (List.range s.length))[j] = (s[j], j) := by
    rw [List.getElem_zip]
    simp
  have htie2 : s[i] = s[j] := by
    rwa [List.getD_eq_getElem _ _ hi, List.getD_eq_getElem _ _ hj] at htie
  have haZ : ((s[i], i) : ℚ × ℕ) ∈ s.zip (List.range s.length) := by
    rw [← hgi]; exact List.getElem_mem hiz
  have hbZ : ((s[i], j) : ℚ × ℕ) ∈ s.zip (List.range s.length) := by
    rw [htie2, ← hgj]; exact List.getElem_mem hjz
  have haS : ((s[i], i) : ℚ × ℕ) ∈ sortKeys (s.zip (List.range s.length)) :=
    mem_sortKeys.mpr haZ
  have hbS : ((s[i], j) : ℚ × ℕ) ∈ sortKeys (s.zip (List.range s.length)) :=
    mem_sortKeys.mpr hbZ
  have hne : ((s[i], i) : ℚ × ℕ) ≠ (s[i], j) := by
    intro h
    have h2 := congrArg Prod.snd h
    simp at h2
    omega
  have hr : ¬ keyLe ((s[i], j) : ℚ × ℕ) ((s[i], i) : ℚ × ℕ) = true := by
    rw [keyLe_iff]
    rintro (h | ⟨-, h⟩)
    · exact lt_irrefl _ h
    · omega
  have hpos := pairwise_firstPos_lt (sortKeys_pairwise _) haS hbS hne hr
  have hpaL : firstPos ((s[i], i) : ℚ × ℕ) (sortKeys (s.zip (List.range s.length))) <
      (sortKeys (s.zip (List.range s.length))).length := firstPos_lt_length haS
  have hpbL : firstPos ((s[i], j) : ℚ × ℕ) (sortKeys (s.zip (List.range s.length))) <
      (sortKeys (s.zip (List.range s.length))).length := firstPos_lt_length hbS
  have hasc_eq : argsortAsc s =
      (sortKeys (s.zip (List.range s.length))).map (fun p => p.2) := rfl
  have hasclen : (argsortAsc s).length =
      (sortKeys (s.zip (List.range s.length))).length := by
    rw [hasc_eq, List.length_map]
  have hltA : firstPos ((s[i], i) : ℚ × ℕ) (sortKeys (s.zip (List.range s.length))) <
      (argsortAsc s).length := by omega
  have hltB : firstPos ((s[i], j) : ℚ × ℕ) (sortKeys (s.zip (List.range s.length))) <
      (argsortAsc s).length := by omega
  have hLgetA : (sortKeys (s.zip (List.range s.length)))[firstPos ((s[i], i) : ℚ × ℕ)
      (sortKeys (s.zip (List.range s.length)))] = ((s[i], i) : ℚ × ℕ) := by
    have h := get_firstPos haS
    rwa [List.get_eq_getElem] at h
  have hLgetB : (sortKeys (s.zip (List.range s.length)))[firstPos ((s[i], j) : ℚ × ℕ)
      (sortKeys (s.zip (List.range s.length)))] = ((s[i], j) : ℚ × ℕ) := by
    have h := get_firstPos hbS
    rwa [List.get_eq_getElem] at h
  have hltA2 : firstPos ((s[i], i) : ℚ × ℕ) (sortKeys (s.zip (List.range s.length))) <
      ((sortKeys (s.zip (List.range s.length))).map (fun p : ℚ × ℕ => p.2)).length := by
    rw [List.length_map]; exact hpaL
  have hltB2 : firstPos ((s[i], j) : ℚ × ℕ) (sortKeys (s.zip (List.range s.length))) <
      ((sortKeys (s.zip (List.range s.length))).map (fun p : ℚ × ℕ => p.2)).length := by
    rw [List.length_map]; exact hpbL
  have hgetA : (argsortAsc s)[firstPos ((s[i], i) : ℚ × ℕ)
      (sortKeys (s.zip (List.range s.length)))] = i := by
    show ((sortKeys (s.zip (List.range s.length))).map
      (fun p : ℚ × ℕ => p.2))[firstPos ((s[i], i) : ℚ × ℕ)
        (sortKeys (s.zip (List.range s.length)))] = i
    rw [List.getElem_map, hLgetA]
  have hgetB : (argsortAsc s)[firstPos ((s[i], j) : ℚ × ℕ)
      (sortKeys (s.zip (List.range s.length)))] = j := by
    show ((sortKeys (s.zip (List.range s.length))).map
      (fun p : ℚ × ℕ => p.2))[firstPos ((s[i], j) : ℚ × ℕ)
        (sortKeys (s.zip (List.range s.length)))] = j
    rw [List.getElem_map, hLgetB]
  have hmi : i ∈ argsortAsc s := by
    rw [← hgetA]; exact List.getElem_mem hltA
  have hmj : j ∈ argsortAsc s := by
    rw [← hgetB]; exact List.getElem_mem hltB
  have hia : firstPos i (argsortAsc s) =
      firstPos ((s[i], i) : ℚ × ℕ) (sortKeys (s.zip (List.range s.length))) := by
    conv_lhs => rw [← hgetA]
    exact firstPos_getElem (argsortAsc_nodup s) _ hltA
  have hjb : firstPos j (argsortAsc s) =
      firstPos ((s[i], j) : ℚ × ℕ) (sortKeys (s.zip (List.range s.length))) := by
    conv_lhs => rw [← hgetB]
    exact firstPos_getElem (argsortAsc_nodup s) _ hltB
  have hdesc : argsortDesc s = (argsortAsc s).reverse := rfl
  rw [hdesc, firstPos_reverse_of_nodup (argsortAsc_nodup s) hmi,
    firstPos_reverse_of_nodup (argsortAsc_nodup s) hmj, hia, hjb,
    List.length_reverse]
  constructor
  · omega
  · omega

/-- C5 counterexample: two candidates with equal hybrid scores (both 1)
come back in *reversed* candidate order — the selection is not a stable
descending sort: the earlier candidate `chA` is ranked second. -/
theorem stable_tie_cex :
    (chunkSearch (addChunks eOne [chA, chB]) eOne "zz" 2 none) = ([chB, chA], [1, 1]) ∧
    chA ≠ chB := by
  constructor
  · simp +decide [chunkSearch, searchFinalScores, resolveVectors, addChunks, pyIndex,
      eOne, chA, chB, dot, kwBonus, overlapCnt, tokenSet, pyTokens, lowerStr, wsTokens,
      containsStr, containsChars, List.range_succ, argsortDesc, argsortAsc, sortKeys,
      insertKey, keyLe]
  · decide

/-- C5 (amended): the top-k selection reverses a stable *ascending*
argsort, so two candidates with equal scores — whatever the other
candidates score — appear in the REVERSED relative order of the original
candidate sequence.  In both `ChunkRetriever.search` and
`QARetriever.search`: for any tied pair of candidate positions `i < j`,
candidate `j` occupies a strictly earlier rank than candidate `i` in the
ranking `argsortDesc scores` that the search reads its output off, and
the full-length search output is exactly the candidate list and score
list mapped along that ranking (any smaller `top_k` only truncates it).
-/
theorem stable_tie_amended :
    (∀ (R : ChunkRetriever) (e : String → List ℚ) (q : String)
        (cands : Option (List Chunk)) (i j : ℕ),
      i < j →
      j < (searchFinalScores R e q (cands.getD R.chunks)).length →
      (searchFinalScores R e q (cands.getD R.chunks)).getD i 0 =
        (searchFinalScores R e q (cands.getD R.chunks)).getD j 0 →
      firstPos j (argsortDesc (searchFinalScores R e q (cands.getD R.chunks))) <
        firstPos i (argsortDesc (searchFinalScores R e q (cands.getD R.chunks))) ∧
      firstPos i (argsortDesc (searchFinalScores R e q (cands.getD R.chunks))) <
        (argsortDesc (searchFinalScores R e q (cands.getD R.chunks))).length ∧
      (chunkSearch R e q (searchFinalScores R e q (cands.getD R.chunks)).length cands).1 =
        (argsortDesc (searchFinalScores R e q (cands.getD R.chunks))).map
          (fun p => (cands.getD R.chunks).getD p default) ∧
      (chunkSearch R e q (searchFinalScores R e q (cands.getD R.chunks)).length cands).2 =
        (argsortDesc (searchFinalScores R e q (cands.getD R.chunks))).map
          (fun p => (searchFinalScores R e q (cands.getD R.chunks)).getD p 0)) ∧
    (∀ (Q : QARetriever) (e₂ : String → List ℚ) (q₂ : String) (pn : Option String)
        (i j : ℕ),
      Q.vectors ≠ none →
      i < j →
      j < (qaScores Q e₂ q₂ (qaCandidates Q.qa_items (pn.getD "overall"))).length →
      (qaScores Q e₂ q₂ (qaCandidates Q.qa_items (pn.getD "overall"))).getD i 0 =
        (qaScores Q e₂ q₂ (qaCandidates Q.qa_items (pn.getD "overall"))).getD j 0 →
      firstPos j (argsortDesc (qaScores Q e₂ q₂ (qaCandidates Q.qa_items (pn.getD "overall")))) <
        firstPos i (argsortDesc (qaScores Q e₂ q₂ (qaCandidates Q.qa_items (pn.getD "overall")))) ∧
      firstPos i (argsortDesc (qaScores Q e₂ q₂ (qaCandidates Q.qa_items (pn.getD "overall")))) <
        (argsortDesc (qaScores Q e₂ q₂ (qaCandidates Q.qa_items (pn.getD "overall")))).length ∧
      (qaSearch Q e₂ q₂ pn
          (qaScores Q e₂ q₂ (qaCandidates Q.qa_items (pn.getD "overall"))).length).1 =
        (argsortDesc (qaScores Q e₂ q₂ (qaCandidates Q.qa_items (pn.getD "overall")))).map
          (fun p => Q.qa_items.getD
            ((qaCandidates Q.qa_items (pn.getD "overall")).getD p 0) default) ∧
      (qaSearch Q e₂ q₂ pn
          (qaScores Q e₂ q₂ (qaCandidates Q.qa_items (pn.getD "overall"))).length).2 =
        (argsortDesc (qaScores Q e₂ q₂ (qaCandidates Q.qa_items (pn.getD "overall")))).map
          (fun p => (qaScores Q e₂ q₂ (qaCandidates Q.qa_items (pn.getD "overall"))).getD p 0)) := by
  constructor
  · intro R e q cands i j hij hj htie
    have hp := argsortDesc_tie_before
      (searchFinalScores R e q (cands.getD R.chunks)) i j hij hj htie
    refine ⟨hp.1, hp.2, ?_, ?_⟩ <;>
    ( have hfs_len := searchFinalScores_length R e q (cands.getD R.chunks)
      have hres : ¬ resolveVectors R (cands.getD R.chunks) = [] := by
        intro h0
        rw [h0, List.length_nil] at hfs_len
        omega
      have htgt : ¬ cands.getD R.chunks = [] := by
        intro h0
        apply hres
        rw [h0]
        rfl
      have htk : (argsortDesc (searchFinalScores R e q (cands.getD R.chunks))).take
          (searchFinalScores R e q (cands.getD R.chunks)).length =
          argsortDesc (searchFinalScores R e q (cands.getD R.chunks)) :=
        List.take_of_length_le (le_of_eq (length_argsortDesc _))
      simp [chunkSearch, htgt, hres, htk] )
  · intro Q e₂ q₂ pn i j hv hij hj htie
    have hp := argsortDesc_tie_before
      (qaScores Q e₂ q₂ (qaCandidates Q.qa_items (pn.getD "overall"))) i j hij hj htie
    refine ⟨hp.1, hp.2, ?_, ?_⟩ <;>
    ( have hqslen : (qaScores Q e₂ q₂ (qaCandidates Q.qa_items (pn.getD "overall"))).length =
          (qaCandidates Q.qa_items (pn.getD "overall")).length := by
        simp [qaScores]
      have hitems : ¬ Q.qa_items = [] := by
        intro h0
        have hc : qaCandidates Q.qa_items (pn.getD "overall") = [] := by
          simp [qaCandidates, qaCandidateIdx, h0]
        have hc0 : (qaCandidates Q.qa_items (pn.getD "overall")).length = 0 := by
          rw [hc]
          rfl
        omega
      have hguard : ¬ (Q.qa_items = [] ∨ Q.vectors = none) := by
        rintro (h | h)
        · exact hitems h
        · exact hv h
      have htk : (argsortDesc (qaScores Q e₂ q₂ (qaCandidates Q.qa_items (pn.getD "overall")))).take
          (qaScores Q e₂ q₂ (qaCandidates Q.qa_items (pn.getD "overall"))).length =
          argsortDesc (qaScores Q e₂ q₂ (qaCandidates Q.qa_items (pn.getD "overall"))) :=
        List.take_of_length_le (le_of_eq (length_argsortDesc _))
      simp [qaSearch, hguard, htk] )

/-- C5 witness: over the two-chunk corpus with both hybrid scores equal
to 1, candidate 1 (`chB`) is ranked strictly before candidate 0 (`chA`)
and the full ranking is `[chB, chA]`; likewise for the two tied scoped
QA items, whose full ranking is `[qaX2, qaX1]`. -/
theorem stable_tie_amended_witness :
    firstPos 1 (argsortDesc (searchFinalScores (addChunks eOne [chA, chB]) eOne "zz" [chA, chB])) <
      firstPos 0 (argsortDesc (searchFinalScores (addChunks eOne [chA, chB]) eOne "zz" [chA, chB])) ∧
    (chunkSearch (addChunks eOne [chA, chB]) eOne "zz"
        (searchFinalScores (addChunks eOne [chA, chB]) eOne "zz" [chA, chB]).length none).1 =
      [chB, chA] ∧
    firstPos 1 (argsortDesc (qaScores (qaLoad eOne [qaX1, qaX2]) eOne "z"
        (qaCandidates [qaX1, qaX2] "xyz"))) <
      firstPos 0 (argsortDesc (qaScores (qaLoad eOne [qaX1, qaX2]) eOne "z"
        (qaCandidates [qaX1, qaX2] "xyz"))) ∧
    (qaSearch (qaLoad eOne [qaX1, qaX2]) eOne "z" (some "xyz")
        (qaScores (qaLoad eOne [qaX1, qaX2]) eOne "z"
          (qaCandidates [qaX1, qaX2] "xyz")).length).1 =
      [qaX2, qaX1] := by
  have h1 := stable_tie_amended.1 (addChunks eOne [chA, chB]) eOne "zz" none 0 1
    (by decide)
    (by simp +decide [searchFinalScores, resolveVectors, addChunks, pyIndex, eOne, chA, chB,
      dot, kwBonus, overlapCnt, tokenSet, pyTokens, lowerStr, wsTokens, containsStr,
      containsChars, List.range_succ])
    (by simp +decide [searchFinalScores, resolveVectors, addChunks, pyIndex, eOne, chA, chB,
      dot, kwBonus, overlapCnt, tokenSet, pyTokens, lowerStr, wsTokens, containsStr,
      containsChars, List.range_succ])
  have h2 := stable_tie_amended.2 (qaLoad eOne [qaX1, qaX2]) eOne "z" (some "xyz") 0 1
    (by simp +decide [qaLoad, qaX1, qaX2])
    (by decide)
    (by simp +decide [qaScores, qaLoad, qaCandidates, qaCandidateIdx, pnNorm, upperStr,
      qaX1, qaX2, eOne, dot, List.range_succ])
    (by simp +decide [qaScores, qaLoad, qaCandidates, qaCandidateIdx, pnNorm, upperStr,
      qaX1, qaX2, eOne, dot, List.range_succ])
  have hs1 : (none : Option (List Chunk)).getD (addChunks eOne [chA, chB]).chunks =
      [chA, chB] := rfl
  rw [hs1] at h1
  have hs2 : (some "xyz").getD "overall" = "xyz" := rfl
  have hs3 : (qaLoad eOne [qaX1, qaX2]).qa_items = [qaX1, qaX2] := rfl
  rw [hs2, hs3] at h2
  refine ⟨h1.1, ?_, h2.1, ?_⟩
  · rw [h1.2.2.1]
    simp +decide [searchFinalScores, resolveVectors, addChunks, pyIndex,
      eOne, chA, chB, dot, kwBonus, overlapCnt, tokenSet, pyTokens, lowerStr, wsTokens,
      containsStr, containsChars, List.range_succ, argsortDesc, argsortAsc, sortKeys,
      insertKey, keyLe]
  · rw [h2.2.2.1]
    simp +decide [qaScores, qaLoad, qaCandidates, qaCandidateIdx, pnNorm, upperStr,
      qaX1, qaX2, eOne, dot, List.range_succ, argsortDesc, argsortAsc, sortKeys,
      insertKey, keyLe]

/-- C7 counterexample: with items named "" and "XYZ" and scope "BXH", no
item's product name case-insensitively equals the scope and none equals
"overall" (the claim's hypothesis holds), yet the code's filter treats
the empty name as "overall", selects only that item, and returns a single
item at `top_k = 2` instead of ranking over the entire two-item set. -/
theorem qa_scope_fallback_cex :
    (qaSearch (qaLoad eOne [qaEmptyPn, qaXyz]) eOne "z" (some "BXH") 2).1 = [qaEmptyPn] ∧
    ([qaEmptyPn, qaXyz].filter
      (fun it => upperStr it.product_name == upperStr "BXH" ||
        it.product_name == "overall")).length = 0 ∧
    [qaEmptyPn, qaXyz].length = 2 := by
  refine ⟨?_, by decide, by decide⟩
  simp +decide [qaSearch, qaLoad, qaScores, qaCandidates, qaCandidateIdx, pnNorm, upperStr,
    qaEmptyPn, qaXyz, eOne, dot, List.range_succ, argsortDesc, argsortAsc, sortKeys,
    insertKey, keyLe]

/-- C7 (amended): if no QA item's product name case-insensitively equals
`product_scope`, none equals "overall", and none is empty (an empty name
is normalised to "overall" by the filter), then the scope filter matches
nothing, `QARetriever.search` ranks over the entire item set, and — for a
non-empty loaded index and positive `top_k` — it never returns an empty
result. -/
theorem qa_scope_fallback_amended (Q : QARetriever) (e : String → List ℚ)
    (q scope : String) (k : ℕ)
    (hmatch : ∀ it ∈ Q.qa_items, upperStr it.product_name ≠ upperStr scope ∧
      it.product_name ≠ "overall" ∧ it.product_name ≠ "") :
    qaCandidates Q.qa_items scope = List.range Q.qa_items.length ∧
    qaSearch Q e q (some scope) k = qaSearchAll Q e q k ∧
    (Q.qa_items ≠ [] → Q.vectors ≠ none → 0 < k →
      (qaSearch Q e q (some scope) k).1 ≠ []) := by
  have hidx : qaCandidateIdx Q.qa_items scope = [] := by
    rw [qaCandidateIdx, List.filter_eq_nil_iff]
    intro i hi
    rw [List.mem_range] at hi
    have hmem : Q.qa_items.getD i default ∈ Q.qa_items := by
      rw [List.getD_eq_getElem _ _ hi]; exact List.getElem_mem hi
    obtain ⟨h1, h2, h3⟩ := hmatch _ hmem
    have hpn : pnNorm (Q.qa_items.getD i default) =
        (Q.qa_items.getD i default).product_name := by
      rw [pnNorm, if_neg h3]
    intro hcontra
    have hcontra' : (upperStr (pnNorm (Q.qa_items.getD i default)) == upperStr scope ||
        pnNorm (Q.qa_items.getD i default) == "overall") = true := hcontra
    rw [hpn, Bool.or_eq_true, beq_iff_eq, beq_iff_eq] at hcontra'
    rcases hcontra' with h | h
    · exact h1 h
    · exact h2 h
  have hcand : qaCandidates Q.qa_items scope = List.range Q.qa_items.length := by
    rw [qaCandidates, hidx]
    simp
  refine ⟨hcand, ?_, ?_⟩
  · by_cases hne : Q.qa_items = [] ∨ Q.vectors = none
    · simp [qaSearch, qaSearchAll, hne]
    · have hsc : (some scope).getD "overall" = scope := rfl
      simp only [qaSearch, qaSearchAll, hne, if_false, hsc, hcand]
  · intro hne hvec hk
    have hcond : ¬(Q.qa_items = [] ∨ Q.vectors = none) := by
      simp [hne, hvec]
    have hsc : (some scope).getD "overall" = scope := rfl
    apply List.ne_nil_of_length_pos
    simp only [qaSearch, hcond, if_false, hsc, hcand]
    rw [List.length_map, List.length_take, length_argsortDesc]
    have hqs : (qaScores Q e q (List.range Q.qa_items.length)).length =
        Q.qa_items.length := by
      simp [qaScores]
    rw [hqs]
    have hpos : 0 < Q.qa_items.length := List.length_pos.mpr hne
    rw [Nat.lt_min]
    exact ⟨hk, hpos⟩

/-- C7 witness: over items named "OVERALL" and "XYZ" with scope "BXH",
the filter matches nothing, the search coincides with ranking over the
entire set, and the result is non-empty. -/
theorem qa_scope_fallback_amended_witness :
    qaSearch (qaLoad eOne [qaOv, qaXyz]) eOne "z" (some "BXH") 2 =
      qaSearchAll (qaLoad eOne [qaOv, qaXyz]) eOne "z" 2 ∧
    (qaSearch (qaLoad eOne [qaOv, qaXyz]) eOne "z" (some "BXH") 2).1 ≠ [] := by
  have h := qa_scope_fallback_amended (qaLoad eOne [qaOv, qaXyz]) eOne "z" "BXH" 2
    (by decide)
  exact ⟨h.2.1, h.2.2 (by decide) (by decide) (by decide)⟩

end LaptopRag
